import Mathlib

/-!
# A verification of the MiniRegex engine (pygrep.py)

This file embeds the `MiniRegex` class of `pygrep.py` — a backtracking
regular-expression engine — as executable Lean definitions and proves
properties of the embedding.

## Modelling conventions

* A Python string is a `List Char`; the mutable capture array
  `self.captures` is a `Caps := List (Option (List Char))`.
* The engine's recursive generators (`_match_inner`, `match_group_once`,
  `plus_recurse`) are modelled as resumption trees (`Gen`): a generator
  either is exhausted (`done`, carrying the live capture array it leaves
  behind), raises (`fail`, covering the Python exceptions: `ValueError`
  for parse errors, `IndexError` for capture-array accesses out of range,
  `TypeError` for calling the absent matcher of a group that fell through
  to the atom path), or yields a `(length, group_cursor)` pair together
  with the live capture array at the yield and a continuation.  The
  continuation receives whatever capture array is live when the consumer
  asks for the next result: in the source, `match_group_once` overwrites
  `self.captures[this_group - 1]` after each yield of an alternative's
  matcher, and the suspended matcher sees that overwrite when resumed —
  the resumption-passing model preserves this exactly.
* `genTrace` runs a generator under a consumer that leaves the captures
  untouched between pulls, which is how the top-level `matches` consumers
  (`next(gen, None)` and `any(...)`) behave; it returns the yields in
  order and the termination outcome.
* Recursion of the engine is fuel-indexed; exhausted fuel is the
  distinguished outcome `MErr.fuel`, modelling Python's
  `RecursionError` on divergent patterns such as `()+`.
-/

namespace PyGrep

/-- Capture array: `self.captures`, one optional captured string per group. -/
abbrev Caps := List (Option (List Char))

/-- One yield of the matching generator: `(length_consumed, new_group_index)`
together with the live capture state at the moment of the yield. -/
abbrev Item := Nat × Nat × Caps

/-- Errors that abort construction-time parsing or matching.
`untermClass` and `missingParen` are the two `ValueError`s of the parser;
`patIndex` is the `IndexError` raised by `_parse_atom` on a pattern ending in
a lone backslash; `capsIndex` is the `IndexError` of an out-of-range capture
access; `noMatcher` is the `TypeError` of calling the `None` matcher;
`fuel` marks exhausted recursion depth (`RecursionError`). -/
inductive MErr where
  | untermClass
  | missingParen
  | patIndex
  | capsIndex
  | noMatcher
  | fuel
deriving DecidableEq, Repr

/-- Result of running a matching generator to exhaustion under a
non-interfering consumer: the yields in order, and the way it ends
(normal exhaustion with the final capture state, or an exception). -/
abbrev MRes := List Item × Except MErr Caps

instance {ε α : Type} [DecidableEq ε] [DecidableEq α] : DecidableEq (Except ε α) := fun x y =>
  match x, y with
  | .ok a, .ok b =>
    if h : a = b then isTrue (by rw [h]) else isFalse (fun hc => by cases hc; exact h rfl)
  | .ok _, .error _ => isFalse (fun hc => by cases hc)
  | .error _, .ok _ => isFalse (fun hc => by cases hc)
  | .error a, .error b =>
    if h : a = b then isTrue (by rw [h]) else isFalse (fun hc => by cases hc; exact h rfl)

/-- Parsed atom (`_parse_atom` / `_parse_expression` result): the
`atom_type`/`atom_value`/`negated` data, with the class body kept verbatim. -/
inductive Atom where
  | literal (c : Char)
  | wildcard
  | escD
  | escW
  | cls (body : List Char) (neg : Bool)
  | backref (n : Nat)
  | group (alts : List (List Char))
deriving DecidableEq, Repr

/-- Quantifier attached to an atom or group (`?`, `+`, `*`, or none). -/
inductive Quant where
  | qNone
  | qOpt
  | qPlus
  | qStar
deriving DecidableEq, Repr

/-- `MiniRegex._count_groups`: count unescaped `(`; `\X` skips two chars. -/
def countGroups : List Char → Nat
  | [] => 0
  | ['\\'] => 0
  | '\\' :: _ :: rest => countGroups rest
  | '(' :: rest => countGroups rest + 1
  | _ :: rest => countGroups rest

/-- The scan of `MiniRegex._match_class`: walk the class body; `A-B` (with
the upper bound inside the body) is an inclusive range test, anything else an
equality test; stop at the first hit. -/
def classAux (c : Char) : List Char → Bool
  | a :: '-' :: b :: rest =>
    if a ≤ c ∧ c ≤ b then true else classAux c rest
  | a :: rest => if a = c then true else classAux c rest
  | [] => false

/-- `MiniRegex._match_class`: membership of `c` in the class body, with
negation applied at the end. -/
def matchClass (c : Char) (body : List Char) (neg : Bool) : Bool :=
  if neg then !(classAux c body) else classAux c body

/-- `MiniRegex._parse_atom`: parse the next atomic element, returning the
atom and the number of pattern characters consumed.  A pattern ending in a
lone `\` raises `IndexError` (`patIndex`); an unterminated `[` raises
`ValueError` (`untermClass`). -/
def parseAtom : List Char → Except MErr (Atom × Nat)
  | [] => .error .patIndex
  | '\\' :: rest =>
    match rest with
    | [] => .error .patIndex
    | e :: _ =>
      if e.isDigit then .ok (.backref (e.toNat - '0'.toNat), 2)
      else if e = 'd' then .ok (.escD, 2)
      else if e = 'w' then .ok (.escW, 2)
      else .ok (.literal e, 2)
  | '[' :: rest =>
    let (neg, body0) : Bool × List Char :=
      match rest with
      | '^' :: r => (true, r)
      | r => (false, r)
    let body := body0.takeWhile (fun c => c ≠ ']')
    if body.length = body0.length then .error .untermClass
    else .ok (.cls body neg, 1 + (if neg then 1 else 0) + body.length + 1)
  | '.' :: _ => .ok (.wildcard, 1)
  | c :: _ => .ok (.literal c, 1)

/-- Loop body of `MiniRegex._find_matching_paren`: scan the remaining
characters, adjusting the depth at every `(` and `)` (escaped parentheses
included, as in the source), and return the index of the `)` that brings the
depth to zero. -/
def fmpAux : List Char → Nat → Nat → Except MErr Nat
  | [], _, _ => .error .missingParen
  | c :: rest, i, d =>
    if c = '(' then fmpAux rest (i + 1) (d + 1)
    else if c = ')' then
      if d = 1 then .ok i else fmpAux rest (i + 1) (d - 1)
    else fmpAux rest (i + 1) d

/-- `MiniRegex._find_matching_paren`: find the `)` matching the `(` at
`start`, by depth counting over all parentheses. -/
def findMatchingParen (pat : List Char) (start : Nat) : Except MErr Nat :=
  fmpAux (pat.drop (start + 1)) (start + 1) 1

/-- Loop of `MiniRegex._split_alternatives`: split at `|` when the running
parenthesis depth is zero (the depth may go negative, hence `Int`). -/
def splitAux : List Char → Int → List Char → List (List Char)
  | [], _, acc => [acc.reverse]
  | c :: rest, d, acc =>
    if c = '(' then splitAux rest (d + 1) (c :: acc)
    else if c = ')' then splitAux rest (d - 1) (c :: acc)
    else if c = '|' ∧ d = 0 then acc.reverse :: splitAux rest d []
    else splitAux rest d (c :: acc)

/-- `MiniRegex._split_alternatives`: split a group body at top-level `|`. -/
def splitAlts (content : List Char) : List (List Char) :=
  splitAux content 0 []

/-- `MiniRegex._parse_expression`: a group (with its alternatives split) or
a single atom, together with the characters consumed. -/
def parseExpression (pat : List Char) : Except MErr (Atom × Nat) :=
  match pat with
  | '(' :: _ =>
    match findMatchingParen pat 0 with
    | .error e => .error e
    | .ok j => .ok (.group (splitAlts ((pat.take j).drop 1)), j + 1)
  | _ => parseAtom pat

/-- `MiniRegex._matcher_for`: the single-character predicate of an atom;
`none` models Python's `None` (returned for a group that falls through to
the atom path). -/
def atomMatcher : Atom → Option (Char → Bool)
  | .escD => some Char.isDigit
  | .escW => some (fun c => c.isAlpha || c.isDigit || c = '_')
  | .literal v => some (fun c => c = v)
  | .cls body neg => some (fun c => matchClass c body neg)
  | .wildcard => some (fun _ => true)
  | _ => none

/-- A running generator of the engine, as a resumption tree: `yld l g c k`
yields `(l, g)` with the live capture array `c`; the continuation `k`
receives whatever capture array the consumer leaves behind when it asks for
the next result — consumers in the source mutate `self.captures` between
yields, and the resumed generator sees that mutation.  `done c` is normal
exhaustion leaving the live capture array `c`; `fail e` is a raised
exception. -/
inductive Gen where
  | done : Caps → Gen
  | fail : MErr → Gen
  | yld : Nat → Nat → Caps → (Caps → Gen) → Gen

/-- Type of the recursive matcher `_match_inner` at one fuel level below:
text, pattern, group cursor, entry capture state. -/
abbrev MI := List Char → List Char → Nat → Caps → Gen

/-- `for rlen, r_idx in inner: yield f(rlen), r_idx`: re-yield with mapped
lengths; resumption states and the final live state pass through. -/
def mapGen (f : Nat → Nat) : Gen → Gen
  | .done c => .done c
  | .fail e => .fail e
  | .yld l g c k => .yld (f l) g c (fun c2 => mapGen f (k c2))

/-- Run `g` to exhaustion, then continue as `f` applied to the live capture
state `g` ends in (two loop phases in sequence). -/
def genSeq : Gen → (Caps → Gen) → Gen
  | .done c, f => f c
  | .fail e, _ => .fail e
  | .yld l g c k, f => .yld l g c (fun c2 => genSeq (k c2) f)

/-- `for u in us: <run mk u>`: the phases run sequentially, each starting
in the live state the previous phase ended in. -/
def seqGens (mk : Nat → Caps → Gen) : List Nat → Caps → Gen
  | [], caps => .done caps
  | u :: rest, caps => genSeq (mk u caps) (fun c => seqGens mk rest c)

/-- `[n, n-1, …, 1]`: the order in which a greedy `+` tries lengths. -/
def countdown : Nat → List Nat
  | 0 => []
  | n + 1 => (n + 1) :: countdown n

/-- One alternative inside `match_group_once`: every yield of the
alternative's matcher first overwrites `captures[thisG - 1]` with the
consumed prefix (Python `IndexError` when the slot is out of range), then
is passed on; the consumer's resumption state — mutation included — is
handed to the suspended matcher.  When the matcher is exhausted, the
snapshot `saved` is restored and `cont` (the remaining alternatives)
runs. -/
def runAlt (thisG : Nat) (inp : List Char) (saved : Caps) (cont : Caps → Gen) : Gen → Gen
  | .done _ => cont saved
  | .fail e => .fail e
  | .yld l g c k =>
    if thisG - 1 < c.length then
      .yld l g (c.set (thisG - 1) (some (inp.take l)))
        (fun c2 => runAlt thisG inp saved cont (k c2))
    else .fail .capsIndex

/-- `match_group_once`: try the alternatives in source order, snapshotting
the capture state before each alternative and restoring it afterwards. -/
def matchAlts (mi : MI) (inp : List Char) (alts : List (List Char))
    (thisG gidx : Nat) (s : Caps) : Gen :=
  match alts with
  | [] => .done s
  | alt :: rest =>
    runAlt thisG inp s (fun s2 => matchAlts mi inp rest thisG gidx s2) (mi inp alt gidx s)

/-- The repetitions of `plus_recurse` after one group match of length `l`
yielded at state `saved`: first the combined yields of the recursive
continuation `pgen`, then — after restoring the snapshot — the single
repetition itself, whose resumption returns control to `resume`. -/
def plusGo (l : Nat) (saved : Caps) (yg : Nat) (resume : Caps → Gen) : Gen → Gen
  | .done _ => .yld l yg saved resume
  | .fail e => .fail e
  | .yld ml mg cm k => .yld (l + ml) mg cm (fun c2 => plusGo l saved yg resume (k c2))

/-- Walk the yields of `match_group_once` inside `plus_recurse`, starting
the recursive repetition chain `pr` at each yield's live state. -/
def plusOuter (pr : Nat → Caps → Gen) : Gen → Gen
  | .done c => .done c
  | .fail e => .fail e
  | .yld l g c k => plusGo l c g (fun c2 => plusOuter pr (k c2)) (pr l c)

/-- `plus_recurse`: one or more repetitions of the group, greedy-longest
first; recursion depth is bounded by fuel. -/
def matchPlus : Nat → MI → List Char → List (List Char) → Nat → Nat → Caps → Gen
  | 0, _, _, _, _, _, _ => .fail .fuel
  | fuel + 1, mi, inp, alts, thisG, gidx, caps =>
    plusOuter (fun l c => matchPlus fuel mi (inp.drop l) alts thisG gidx c)
      (matchAlts mi inp alts thisG gidx caps)

/-- The inner loop of `for mlen, idx in gen: for rlen, r_idx in
inner(mlen, idx, …): yield mlen + rlen, r_idx`: re-yield the remainder's
results shifted by `l`; when the remainder is exhausted, hand its live
final state back to the suspended outer generator through `resume`. -/
def bindInner (l : Nat) (resume : Caps → Gen) : Gen → Gen
  | .done cf => resume cf
  | .fail e => .fail e
  | .yld rl rg rc rk => .yld (l + rl) rg rc (fun c2 => bindInner l resume (rk c2))

/-- The outer loop pairing each yield of `gen` with a full run of
`mk l g c`, the remainder matcher started at the yield's live state. -/
def bindGen (mk : Nat → Nat → Caps → Gen) : Gen → Gen
  | .done c => .done c
  | .fail e => .fail e
  | .yld l g c k => bindInner l (fun cf => bindGen mk (k cf)) (mk l g c)

/-- The single-atom part of `_match_inner` (everything after the group and
backreference branches), for each quantifier.  `matcher = none` models the
`None` returned by `_matcher_for` for a group that fell through (only
possible with `*`); calling it is Python's `TypeError`. -/
def matchAtom (mi : MI) (matcher : Option (Char → Bool)) (q : Quant)
    (text remainder : List Char) (gidx : Nat) (caps : Caps) : Gen :=
  match q with
  | .qNone =>
    match text with
    | [] => .done caps
    | c :: rest =>
      match matcher with
      | none => .fail .noMatcher
      | some m =>
        if m c then mapGen (fun rl => 1 + rl) (mi rest remainder gidx caps)
        else .done caps
  | .qPlus =>
    match text with
    | [] => .done caps
    | c :: _ =>
      match matcher with
      | none => .fail .noMatcher
      | some m =>
        if m c then
          seqGens (fun u s => mapGen (fun rl => u + rl) (mi (text.drop u) remainder gidx s))
            (countdown ((text.takeWhile m).length)) caps
        else .done caps
  | .qOpt =>
    match text with
    | [] => mi text remainder gidx caps
    | c :: rest =>
      match matcher with
      | none => .fail .noMatcher
      | some m =>
        if m c then
          genSeq (mapGen (fun rl => 1 + rl) (mi rest remainder gidx caps))
            (fun fin => mi text remainder gidx fin)
        else mi text remainder gidx caps
  | .qStar =>
    match text with
    | [] =>
      seqGens (fun u s => mapGen (fun rl => u + rl) (mi (text.drop u) remainder gidx s))
        [0] caps
    | _ :: _ =>
      match matcher with
      | none => .fail .noMatcher
      | some m =>
        seqGens (fun u s => mapGen (fun rl => u + rl) (mi (text.drop u) remainder gidx s))
          (countdown ((text.takeWhile m).length) ++ [0]) caps

/-- Quantifier detection of `_match_inner`: `pat[consumed]` attaches as a
quantifier when it is `+`, `?` or `*`; the rest of the pattern is the
remainder to match afterwards. -/
def quantSplit (rest : List Char) : Quant × List Char :=
  match rest with
  | c :: rs =>
    if c = '+' then (.qPlus, rs)
    else if c = '?' then (.qOpt, rs)
    else if c = '*' then (.qStar, rs)
    else (.qNone, c :: rs)
  | [] => (.qNone, [])

/-- The dispatch of `_match_inner` on the parsed expression: the group
branch (per quantifier; `*` falls through to the atom path with no matcher,
as in the source), the backreference branch (quantifier ignored; `\0` reads
`captures[-1]`, Python's negative indexing), and the single-atom branch.
`mi` is the recursive matcher, `mpl` the `plus_recurse` closure. -/
def matchExpr (mi : MI)
    (mpl : List Char → List (List Char) → Nat → Nat → Caps → Gen)
    (a : Atom) (q : Quant) (text remainder : List Char) (gidx : Nat) (caps : Caps) : Gen :=
  match a with
  | .group alts =>
    let thisG := gidx + 1
    match q with
    | .qNone =>
      bindGen (fun l g c => mi (text.drop l) remainder g c)
        (matchAlts mi text alts thisG thisG caps)
    | .qOpt =>
      genSeq
        (bindGen (fun l g c => mi (text.drop l) remainder g c)
          (matchAlts mi text alts thisG thisG caps))
        (fun fin => mi text remainder gidx fin)
    | .qPlus =>
      bindGen (fun l g c => mi (text.drop l) remainder g c)
        (mpl text alts thisG thisG caps)
    | .qStar =>
      matchAtom mi none .qStar text remainder gidx caps
  | .backref ref =>
    if ref = 0 then
      match caps.getLast? with
      | none => .fail .capsIndex
      | some none => .done caps
      | some (some v) =>
        if v.isPrefixOf text then
          mapGen (fun rl => v.length + rl) (mi (text.drop v.length) remainder gidx caps)
        else .done caps
    else
      if ref ≤ caps.length then
        match caps.get? (ref - 1) with
        | some (some v) =>
          if v.isPrefixOf text then
            mapGen (fun rl => v.length + rl) (mi (text.drop v.length) remainder gidx caps)
          else .done caps
        | _ => .done caps
      else .done caps
  | _ =>
    matchAtom mi (atomMatcher a) q text remainder gidx caps

/-- `MiniRegex._match_inner`: the core recursive matcher as a resumption
tree yielding `(length_consumed, new_group_index)` pairs. -/
def matchInner : Nat → List Char → List Char → Nat → Caps → Gen
  | 0, _, _, _, _ => .fail .fuel
  | fuel + 1, text, pat, gidx, caps =>
    match pat with
    | [] => .yld 0 gidx caps (fun c => .done c)
    | _ :: _ =>
      match parseExpression pat with
      | .error e => .fail e
      | .ok (a, consumed) =>
        let (q, remainder) := quantSplit (pat.drop consumed)
        matchExpr (matchInner fuel) (matchPlus fuel (matchInner fuel))
          a q text remainder gidx caps

/-- The results of a generator when driven by a consumer that leaves the
captures untouched between pulls — how the top-level `matches` consumers
`next(gen, None)` and `any(...)` behave: the yields in order, and the way
the generator ends. -/
def genTrace : Gen → MRes
  | .done c => ([], .ok c)
  | .fail e => ([], .error e)
  | .yld l g c k =>
    let (ys, t) := genTrace (k c)
    ((l, g, c) :: ys, t)

/-- Pull results until one satisfies `p` (Python's `next(gen, None)` when
`p` is constantly true, `any(...)` otherwise), without touching the
captures between pulls; report the accepted yield, or the live state at
exhaustion. -/
def findYield (p : Nat → Bool) : Gen → Except MErr (Option Item × Caps)
  | .done c => .ok (none, c)
  | .fail e => .error e
  | .yld l g c k => if p l then .ok (some (l, g, c), c) else findYield p (k c)

/-- `MiniRegex._strip_anchors`: leading `^`, trailing `$`, and the core
pattern between them (`pat[int(start) : -int(end) or None]`). -/
def stripAnchors (pat : List Char) : Bool × Bool × List Char :=
  let s : Bool := match pat with | '^' :: _ => true | _ => false
  let e : Bool := match pat.getLast? with | some '$' => true | _ => false
  (s, e, (pat.take (pat.length - (if e then 1 else 0))).drop (if s then 1 else 0))

/-- The loop `for i in range(len(text) + 1)` of `MiniRegex.matches`,
returning the boolean result together with the live capture state
(`self.captures`); `k` counts the offsets still to try, and each offset's
generator starts in the state the previous one ended in. -/
def tryOffsetsC (fuel : Nat) (core text : List Char) (endA : Bool) :
    Nat → Nat → Caps → Except MErr (Bool × Caps)
  | 0, _, caps => .ok (false, caps)
  | k + 1, i, caps =>
    match (if endA then
            findYield (fun l => decide (i + l = text.length))
              (matchInner fuel (text.drop i) core 0 caps)
          else
            findYield (fun _ => true) (matchInner fuel (text.drop i) core 0 caps)) with
    | .error e => .error e
    | .ok (some y, _) => .ok (true, y.2.2)
    | .ok (none, fin) => tryOffsetsC fuel core text endA k (i + 1) fin

/-- `MiniRegex.matches`, additionally exposing the final `self.captures`:
strip the anchors, reset the captures to all-`None`, and search per the
anchor configuration; the first yield accepted by the anchor test wins. -/
def matchesCaps (fuel : Nat) (pattern text : List Char) : Except MErr (Bool × Caps) :=
  let (s, e, core) := stripAnchors pattern
  let caps0 : Caps := List.replicate (countGroups pattern) none
  if s then
    match (if e then
            findYield (fun l => decide (l = text.length)) (matchInner fuel text core 0 caps0)
          else
            findYield (fun _ => true) (matchInner fuel text core 0 caps0)) with
    | .error er => .error er
    | .ok (some y, _) => .ok (true, y.2.2)
    | .ok (none, fin) => .ok (false, fin)
  else tryOffsetsC fuel core text e (text.length + 1) 0 caps0

/-- `MiniRegex.matches`: the boolean result. -/
def matchesE (fuel : Nat) (pattern text : List Char) : Except MErr Bool :=
  (matchesCaps fuel pattern text).map Prod.fst

/-- The state built by `MiniRegex.__init__`: it stores the pattern and
counts the groups, performing no validation (it cannot fail). -/
structure MiniRegexS where
  pattern : List Char
  captures : Caps
  numGroups : Nat
deriving DecidableEq, Repr

/-- `MiniRegex.__init__` / `construct(pattern)`: total — no pattern is
rejected at construction time. -/
def construct (pattern : List Char) : MiniRegexS :=
  { pattern := pattern, captures := [], numGroups := countGroups pattern }

/-!
## The save/restore discipline

The restores the source performs explicitly — `match_group_once` between
alternatives and at exhaustion, `plus_recurse` before re-yielding a single
repetition — hold for every way the generators can be resumed; and a
matcher call that fails without a single yield leaves the captures as it
found them.
-/

theorem mapGen_done {f : Nat → Nat} {g : Gen} {fin : Caps}
    (h : mapGen f g = .done fin) : g = .done fin := by
  cases g with
  | done c => rw [mapGen] at h; exact h
  | fail e => rw [mapGen] at h; exact Gen.noConfusion h
  | yld l gg c k => rw [mapGen] at h; exact Gen.noConfusion h

theorem genSeq_done {g : Gen} {f : Caps → Gen} {fin : Caps}
    (h : genSeq g f = .done fin) : ∃ c, g = .done c ∧ f c = .done fin := by
  cases g with
  | done c => exact ⟨c, rfl, by rwa [genSeq] at h⟩
  | fail e => rw [genSeq] at h; exact Gen.noConfusion h
  | yld l gg c k => rw [genSeq] at h; exact Gen.noConfusion h

theorem bindInner_done {l : Nat} {resume : Caps → Gen} {ig : Gen} {fin : Caps}
    (h : bindInner l resume ig = .done fin) :
    ∃ cf, ig = .done cf ∧ resume cf = .done fin := by
  cases ig with
  | done cf => exact ⟨cf, rfl, by rwa [bindInner] at h⟩
  | fail e => rw [bindInner] at h; exact Gen.noConfusion h
  | yld rl rg rc rk => rw [bindInner] at h; exact Gen.noConfusion h

theorem seqGens_done {mk : Nat → Caps → Gen}
    (hmk : ∀ u s c, mk u s = .done c → c = s) :
    ∀ {us : List Nat} {caps fin : Caps}, seqGens mk us caps = .done fin → fin = caps := by
  intro us
  induction us with
  | nil =>
    intro caps fin h
    rw [seqGens] at h
    exact (Gen.done.inj h).symm
  | cons u rest ih =>
    intro caps fin h
    rw [seqGens] at h
    obtain ⟨c, hg, hf⟩ := genSeq_done h
    have h1 : c = caps := hmk u caps c hg
    have h2 : fin = c := ih hf
    rw [h2, h1]

theorem runAlt_done {thisG : Nat} {inp : List Char} {saved : Caps} {cont : Caps → Gen}
    {ig : Gen} {fin : Caps} (h : runAlt thisG inp saved cont ig = .done fin) :
    cont saved = .done fin := by
  cases ig with
  | done c => rwa [runAlt] at h
  | fail e => rw [runAlt] at h; exact Gen.noConfusion h
  | yld l g c k =>
    rw [runAlt] at h
    split at h
    · exact Gen.noConfusion h
    · exact Gen.noConfusion h

theorem matchAlts_done {mi : MI} {inp : List Char} {thisG gidx : Nat} :
    ∀ {alts : List (List Char)} {s fin : Caps},
      matchAlts mi inp alts thisG gidx s = .done fin → fin = s := by
  intro alts
  induction alts with
  | nil =>
    intro s fin h
    rw [matchAlts] at h
    exact (Gen.done.inj h).symm
  | cons alt rest ih =>
    intro s fin h
    rw [matchAlts] at h
    exact ih (runAlt_done h)

theorem plusGo_ne_done {l : Nat} {saved : Caps} {yg : Nat} {resume : Caps → Gen}
    {pgen : Gen} {fin : Caps} (h : plusGo l saved yg resume pgen = .done fin) : False := by
  cases pgen with
  | done c => rw [plusGo] at h; exact Gen.noConfusion h
  | fail e => rw [plusGo] at h; exact Gen.noConfusion h
  | yld ml mg cm k => rw [plusGo] at h; exact Gen.noConfusion h

theorem matchPlus_done {fuel : Nat} {mi : MI} {inp : List Char}
    {alts : List (List Char)} {thisG gidx : Nat} {caps fin : Caps}
    (h : matchPlus fuel mi inp alts thisG gidx caps = .done fin) : fin = caps := by
  cases fuel with
  | zero => rw [matchPlus] at h; exact Gen.noConfusion h
  | succ f =>
    rw [matchPlus] at h
    cases hma : matchAlts mi inp alts thisG gidx caps with
    | done c =>
      rw [hma, plusOuter] at h
      rw [← Gen.done.inj h]
      exact matchAlts_done hma
    | fail e => rw [hma, plusOuter] at h; exact Gen.noConfusion h
    | yld l g c k =>
      rw [hma, plusOuter] at h
      exact (plusGo_ne_done h).elim

theorem matchAtom_done {mi : MI}
    (hmi : ∀ t p g c fin, mi t p g c = .done fin → fin = c)
    {matcher : Option (Char → Bool)} {q : Quant} {text remainder : List Char}
    {gidx : Nat} {caps fin : Caps}
    (h : matchAtom mi matcher q text remainder gidx caps = .done fin) : fin = caps := by
  have hseq : ∀ (us : List Nat) (s0 : Caps),
      seqGens (fun u s => mapGen (fun rl => u + rl) (mi (text.drop u) remainder gidx s)) us s0
        = .done fin → fin = s0 := by
    intro us s0 hdone
    refine seqGens_done ?_ hdone
    intro u s c hc
    exact hmi _ _ _ _ _ (mapGen_done hc)
  cases q with
  | qNone =>
    cases text with
    | nil => rw [matchAtom] at h; exact (Gen.done.inj h).symm
    | cons c rest =>
      cases matcher with
      | none => rw [matchAtom] at h; exact Gen.noConfusion h
      | some m =>
        rw [matchAtom] at h
        by_cases hm : m c
        · rw [if_pos hm] at h
          exact hmi _ _ _ _ _ (mapGen_done h)
        · rw [if_neg hm] at h
          exact (Gen.done.inj h).symm
  | qPlus =>
    cases text with
    | nil => rw [matchAtom] at h; exact (Gen.done.inj h).symm
    | cons c rest =>
      cases matcher with
      | none => rw [matchAtom] at h; exact Gen.noConfusion h
      | some m =>
        rw [matchAtom] at h
        by_cases hm : m c
        · rw [if_pos hm] at h
          exact hseq _ _ h
        · rw [if_neg hm] at h
          exact (Gen.done.inj h).symm
  | qOpt =>
    cases text with
    | nil => rw [matchAtom] at h; exact hmi _ _ _ _ _ h
    | cons c rest =>
      cases matcher with
      | none => rw [matchAtom] at h; exact Gen.noConfusion h
      | some m =>
        rw [matchAtom] at h
        by_cases hm : m c
        · rw [if_pos hm] at h
          obtain ⟨c2, h1, h2⟩ := genSeq_done h
          have e1 : c2 = caps := hmi _ _ _ _ _ (mapGen_done h1)
          have e2 : fin = c2 := hmi _ _ _ _ _ h2
          rw [e2, e1]
        · rw [if_neg hm] at h
          exact hmi _ _ _ _ _ h
  | qStar =>
    cases text with
    | nil => rw [matchAtom] at h; exact hseq _ _ h
    | cons c rest =>
      cases matcher with
      | none => rw [matchAtom] at h; exact Gen.noConfusion h
      | some m =>
        rw [matchAtom] at h
        exact hseq _ _ h

/-- However a generator is driven — whatever capture states its consumer
resumes it with — if it becomes exhausted, the live capture state it
leaves behind is `s`. -/
def EndsAt (s : Caps) : Gen → Prop
  | .done c => c = s
  | .fail _ => True
  | .yld _ _ _ k => ∀ c2, EndsAt s (k c2)

theorem runAlt_endsAt {s saved : Caps} {thisG : Nat} {inp : List Char} {cont : Caps → Gen}
    (hc : EndsAt s (cont saved)) :
    ∀ (ig : Gen), EndsAt s (runAlt thisG inp saved cont ig) := by
  intro ig
  induction ig with
  | done c => rw [runAlt]; exact hc
  | fail e => rw [runAlt]; trivial
  | yld l g c k ih =>
    rw [runAlt]
    split
    · intro c2
      exact ih c2
    · trivial

theorem matchAlts_endsAt {mi : MI} {inp : List Char} {thisG gidx : Nat} :
    ∀ (alts : List (List Char)) (s : Caps),
      EndsAt s (matchAlts mi inp alts thisG gidx s) := by
  intro alts
  induction alts with
  | nil =>
    intro s
    rw [matchAlts]
    exact rfl
  | cons alt rest ih =>
    intro s
    rw [matchAlts]
    exact runAlt_endsAt (ih s) _

theorem plusGo_endsAt {s : Caps} {l : Nat} {saved : Caps} {yg : Nat} {resume : Caps → Gen}
    (hr : ∀ c2, EndsAt s (resume c2)) :
    ∀ (pgen : Gen), EndsAt s (plusGo l saved yg resume pgen) := by
  intro pgen
  induction pgen with
  | done c =>
    rw [plusGo]
    intro c2
    exact hr c2
  | fail e => rw [plusGo]; trivial
  | yld ml mg cm k ih =>
    rw [plusGo]
    intro c2
    exact ih c2

theorem plusOuter_endsAt {s : Caps} {pr : Nat → Caps → Gen} :
    ∀ (gen : Gen), EndsAt s gen → EndsAt s (plusOuter pr gen) := by
  intro gen
  induction gen with
  | done c =>
    intro hE
    rw [plusOuter]
    exact hE
  | fail e =>
    intro _
    rw [plusOuter]
    trivial
  | yld l g c k ih =>
    intro hE
    rw [plusOuter]
    exact plusGo_endsAt (fun c2 => ih c2 (hE c2)) _

theorem matchPlus_endsAt :
    ∀ (fuel : Nat) (mi : MI) (inp : List Char) (alts : List (List Char))
      (thisG gidx : Nat) (caps : Caps),
      EndsAt caps (matchPlus fuel mi inp alts thisG gidx caps) := by
  intro fuel mi inp alts thisG gidx caps
  cases fuel with
  | zero => rw [matchPlus]; trivial
  | succ f =>
    rw [matchPlus]
    exact plusOuter_endsAt _ (matchAlts_endsAt alts caps)

theorem bindGen_done {mk : Nat → Nat → Caps → Gen} {s fin : Caps} :
    ∀ {gen : Gen}, EndsAt s gen → bindGen mk gen = .done fin → fin = s := by
  intro gen
  induction gen with
  | done c =>
    intro hE h
    rw [bindGen] at h
    rw [← Gen.done.inj h]
    exact hE
  | fail e =>
    intro _ h
    rw [bindGen] at h
    exact Gen.noConfusion h
  | yld l g c k ih =>
    intro hE h
    rw [bindGen] at h
    obtain ⟨cf, hig, hres⟩ := bindInner_done h
    exact ih cf (hE cf) hres

theorem matchExpr_done {mi : MI}
    {mpl : List Char → List (List Char) → Nat → Nat → Caps → Gen}
    (hmi : ∀ t p g c fin, mi t p g c = .done fin → fin = c)
    (hmplE : ∀ inp alts tg g c, EndsAt c (mpl inp alts tg g c))
    {a : Atom} {q : Quant} {text remainder : List Char} {gidx : Nat}
    {caps fin : Caps}
    (h : matchExpr mi mpl a q text remainder gidx caps = .done fin) : fin = caps := by
  cases a with
  | group alts =>
    cases q with
    | qNone =>
      rw [matchExpr] at h
      exact bindGen_done (matchAlts_endsAt alts caps) h
    | qOpt =>
      rw [matchExpr] at h
      obtain ⟨c, h1, h2⟩ := genSeq_done h
      have e1 : c = caps := bindGen_done (matchAlts_endsAt alts caps) h1
      have e2 : fin = c := hmi _ _ _ _ _ h2
      rw [e2, e1]
    | qPlus =>
      rw [matchExpr] at h
      exact bindGen_done (hmplE text alts (gidx + 1) (gidx + 1) caps) h
    | qStar =>
      rw [matchExpr] at h
      exact matchAtom_done hmi h
  | backref ref =>
    rw [matchExpr] at h
    by_cases h0 : ref = 0
    · rw [if_pos h0] at h
      split at h
      · exact Gen.noConfusion h
      · exact (Gen.done.inj h).symm
      · rename_i v _
        by_cases hp : v.isPrefixOf text
        · rw [if_pos hp] at h
          exact hmi _ _ _ _ _ (mapGen_done h)
        · rw [if_neg hp] at h
          exact (Gen.done.inj h).symm
    · rw [if_neg h0] at h
      by_cases hle : ref ≤ caps.length
      · rw [if_pos hle] at h
        split at h
        · rename_i v _
          by_cases hp : v.isPrefixOf text
          · rw [if_pos hp] at h
            exact hmi _ _ _ _ _ (mapGen_done h)
          · rw [if_neg hp] at h
            exact (Gen.done.inj h).symm
        · exact (Gen.done.inj h).symm
      · rw [if_neg hle] at h
        exact (Gen.done.inj h).symm
  | literal c =>
    have h2 : matchAtom mi (atomMatcher (.literal c)) q text remainder gidx caps = .done fin := h
    exact matchAtom_done hmi h2
  | wildcard =>
    have h2 : matchAtom mi (atomMatcher .wildcard) q text remainder gidx caps = .done fin := h
    exact matchAtom_done hmi h2
  | escD =>
    have h2 : matchAtom mi (atomMatcher .escD) q text remainder gidx caps = .done fin := h
    exact matchAtom_done hmi h2
  | escW =>
    have h2 : matchAtom mi (atomMatcher .escW) q text remainder gidx caps = .done fin := h
    exact matchAtom_done hmi h2
  | cls body neg =>
    have h2 : matchAtom mi (atomMatcher (.cls body neg)) q text remainder gidx caps = .done fin := h
    exact matchAtom_done hmi h2

/-- A matcher call that fails without a single yield — it cannot have been
resumed, so no consumer interference is possible — leaves the capture
array exactly as it found it. -/
theorem matchInner_done :
    ∀ (fuel : Nat) (text pat : List Char) (gidx : Nat) (caps fin : Caps),
      matchInner fuel text pat gidx caps = .done fin → fin = caps := by
  intro fuel
  induction fuel with
  | zero =>
    intro text pat g caps fin h
    rw [matchInner] at h
    exact Gen.noConfusion h
  | succ f ih =>
    intro text pat g caps fin h
    cases pat with
    | nil =>
      rw [matchInner] at h
      exact Gen.noConfusion h
    | cons p ps =>
      rw [matchInner] at h
      rcases hpe : parseExpression (p :: ps) with e | ⟨a, consumed⟩
      · rw [hpe] at h
        exact Gen.noConfusion h
      · rw [hpe] at h
        simp only at h
        exact matchExpr_done
          (fun t2 p2 g2 c2 fin2 h2 => ih t2 p2 g2 c2 fin2 h2)
          (fun inp alts tg gg c => matchPlus_endsAt f (matchInner f) inp alts tg gg c) h

/-- C4: the save/restore discipline of the capture array.  (1) However the
`match_group_once` generator of a group is driven — including consumers
that overwrite the group's capture slot between yields, which the resumed
alternative matcher observes — whenever all its alternatives are exhausted
it leaves the capture array exactly as it was on entry; the `?`
zero-length branch therefore also starts from the entry state.  (2) The
same holds for the whole `plus_recurse` repetition chain of a `+` group,
whose snapshots are restored on backtrack.  (3) A recursive matcher call
whose lazy sequence is exhausted without a single yield leaves the capture
array observed by its caller equal to what it was on entry to the path. -/
theorem C4_capture_restore :
    (∀ (mi : MI) (inp : List Char) (alts : List (List Char)) (thisG gidx : Nat) (s : Caps),
        EndsAt s (matchAlts mi inp alts thisG gidx s)) ∧
    (∀ (fuel : Nat) (mi : MI) (inp : List Char) (alts : List (List Char))
        (thisG gidx : Nat) (caps : Caps),
        EndsAt caps (matchPlus fuel mi inp alts thisG gidx caps)) ∧
    (∀ (fuel : Nat) (text pat : List Char) (gidx : Nat) (caps fin : Caps),
        matchInner fuel text pat gidx caps = .done fin → fin = caps) :=
  ⟨fun _ _ alts _ _ s => matchAlts_endsAt alts s, matchPlus_endsAt, matchInner_done⟩

/-- Witness for C4 at a concrete failing path: matching the group `(a)`
against `b` fails without a yield and leaves the entry captures
`[some "x"]` untouched. -/
theorem C4_capture_restore_witness :
    matchInner 6 ['b'] ['(', 'a', ')'] 0 [some ['x']] = .done [some ['x']] ∧
    ([some ['x']] : Caps) = [some ['x']] :=
  ⟨by rfl, C4_capture_restore.2.2 6 ['b'] ['(', 'a', ')'] 0 [some ['x']] [some ['x']] (by rfl)⟩

/-!
## Single-atom quantifier enumeration
-/

theorem matchInner_nil (fuel : Nat) (text : List Char) (gidx : Nat) (caps : Caps) :
    matchInner (fuel + 1) text [] gidx caps = .yld 0 gidx caps (fun c => .done c) := rfl

theorem genTrace_yld {l g : Nat} {c : Caps} {k : Caps → Gen} :
    genTrace (.yld l g c k) = ((l, g, c) :: (genTrace (k c)).1, (genTrace (k c)).2) := rfl

theorem genSeq_trace_ok {f : Caps → Gen} :
    ∀ {g : Gen} {c : Caps}, (genTrace g).2 = .ok c →
      genTrace (genSeq g f)
        = ((genTrace g).1 ++ (genTrace (f c)).1, (genTrace (f c)).2) := by
  intro g
  induction g with
  | done c0 =>
    intro c h
    have h2 : Except.ok (ε := MErr) c0 = .ok c := h
    cases Except.ok.inj h2
    rw [genSeq]
    simp [genTrace]
  | fail e =>
    intro c h
    have h2 : Except.error (α := Caps) e = .ok c := h
    exact Except.noConfusion h2
  | yld l gg cc k ih =>
    intro c h
    have h2 : (genTrace (k cc)).2 = .ok c := h
    rw [genSeq, genTrace_yld, genTrace_yld, ih cc h2]
    simp

theorem seqGens_trace_const {gidx : Nat} {mk : Nat → Caps → Gen}
    (hmk : ∀ u s, genTrace (mk u s) = ([(u, gidx, s)], .ok s)) :
    ∀ (us : List Nat) (caps : Caps),
      genTrace (seqGens mk us caps) = (us.map (fun u => (u, gidx, caps)), .ok caps) := by
  intro us
  induction us with
  | nil => intro caps; rfl
  | cons u rest ih =>
    intro caps
    rw [seqGens]
    have h2 : (genTrace (mk u caps)).2 = .ok caps := by rw [hmk]
    rw [genSeq_trace_ok h2, hmk]
    simp [ih caps]

/-- `matchExpr` on a predicate atom is the single-atom branch. -/
theorem matchExpr_atom {mi : MI}
    {mpl : List Char → List (List Char) → Nat → Nat → Caps → Gen}
    {a : Atom} {m : Char → Bool} (hm : atomMatcher a = some m)
    (q : Quant) (text remainder : List Char) (gidx : Nat) (caps : Caps) :
    matchExpr mi mpl a q text remainder gidx caps
      = matchAtom mi (some m) q text remainder gidx caps := by
  cases a with
  | group alts => simp [atomMatcher] at hm
  | backref ref => simp [atomMatcher] at hm
  | literal c =>
    show matchAtom mi (atomMatcher (.literal c)) q text remainder gidx caps = _
    rw [hm]
  | wildcard =>
    show matchAtom mi (atomMatcher .wildcard) q text remainder gidx caps = _
    rw [hm]
  | escD =>
    show matchAtom mi (atomMatcher .escD) q text remainder gidx caps = _
    rw [hm]
  | escW =>
    show matchAtom mi (atomMatcher .escW) q text remainder gidx caps = _
    rw [hm]
  | cls body neg =>
    show matchAtom mi (atomMatcher (.cls body neg)) q text remainder gidx caps = _
    rw [hm]

/-- The `+`/`*` single-atom branches against an empty remainder enumerate
exactly the run lengths, greedy-longest first, ending with the captures
unchanged. -/
theorem matchAtom_plus_star (fuel : Nat) (m : Char → Bool) (text : List Char)
    (gidx : Nat) (caps : Caps) :
    genTrace (matchAtom (matchInner (fuel + 1)) (some m) .qPlus text [] gidx caps)
      = ((countdown ((text.takeWhile m).length)).map (fun u => (u, gidx, caps)), .ok caps) ∧
    genTrace (matchAtom (matchInner (fuel + 1)) (some m) .qStar text [] gidx caps)
      = ((countdown ((text.takeWhile m).length) ++ [0]).map (fun u => (u, gidx, caps)),
          .ok caps) := by
  have hmk : ∀ u s, genTrace (mapGen (fun rl => u + rl)
      (matchInner (fuel + 1) (text.drop u) [] gidx s)) = ([(u, gidx, s)], .ok s) := by
    intro u s
    rw [matchInner_nil, mapGen, genTrace_yld]
    simp [mapGen, genTrace]
  constructor
  · cases text with
    | nil => simp [matchAtom, genTrace, countdown]
    | cons c rest =>
      rw [matchAtom]
      by_cases hm2 : m c
      · rw [if_pos hm2]
        exact seqGens_trace_const hmk _ _
      · rw [if_neg hm2]
        have hr : (c :: rest).takeWhile m = [] := by
          simp [List.takeWhile_cons, hm2]
        rw [hr]
        simp [genTrace, countdown]
  · cases text with
    | nil =>
      rw [matchAtom, seqGens_trace_const hmk]
      simp [countdown]
    | cons c rest =>
      rw [matchAtom]
      exact seqGens_trace_const hmk _ _

/-- C5: a single predicate atom under `+` yields consumed lengths exactly
`r, r-1, …, 1` where `r` is the maximal run of matching characters (so it
yields nothing when `r = 0`), and under `*` exactly `r, r-1, …, 0`; in both
cases the generator is exhausted with the captures unchanged. -/
theorem C5_atom_quant_order (fuel : Nat) (text pat : List Char) (gidx : Nat)
    (caps : Caps) (a : Atom) (consumed : Nat) (m : Char → Bool)
    (hpe : parseExpression pat = .ok (a, consumed))
    (hm : atomMatcher a = some m) :
    (pat.drop consumed = ['+'] →
      genTrace (matchInner (fuel + 2) text pat gidx caps)
        = ((countdown ((text.takeWhile m).length)).map (fun u => (u, gidx, caps)), .ok caps)) ∧
    (pat.drop consumed = ['*'] →
      genTrace (matchInner (fuel + 2) text pat gidx caps)
        = ((countdown ((text.takeWhile m).length) ++ [0]).map (fun u => (u, gidx, caps)),
            .ok caps)) := by
  cases pat with
  | nil => simp [parseExpression, parseAtom] at hpe
  | cons p ps =>
    constructor
    · intro hdrop
      rw [matchInner, hpe]
      simp only
      rw [hdrop]
      have hq : quantSplit ['+'] = (.qPlus, []) := by simp [quantSplit]
      rw [hq]
      simp only
      rw [matchExpr_atom hm]
      exact (matchAtom_plus_star fuel m text gidx caps).1
    · intro hdrop
      rw [matchInner, hpe]
      simp only
      rw [hdrop]
      have hq : quantSplit ['*'] = (.qStar, []) := by simp [quantSplit]
      rw [hq]
      simp only
      rw [matchExpr_atom hm]
      exact (matchAtom_plus_star fuel m text gidx caps).2

/-- Witness for C5 on `a+` against `aab`: run length 2, yields `[2, 1]`. -/
theorem C5_atom_quant_order_witness :
    (parseExpression ['a', '+'] = .ok (.literal 'a', 1) ∧
      atomMatcher (.literal 'a') = some (fun c => decide (c = 'a')) ∧
      (['a', '+'].drop 1 = ['+'])) ∧
    genTrace (matchInner 9 ['a', 'a', 'b'] ['a', '+'] 0 [])
      = ((countdown ((['a', 'a', 'b'].takeWhile (fun c => decide (c = 'a'))).length)).map
          (fun u => (u, 0, [])), .ok []) :=
  ⟨⟨rfl, rfl, rfl⟩,
    (C5_atom_quant_order 7 ['a', 'a', 'b'] ['a', '+'] 0 [] (.literal 'a') 1
      (fun c => decide (c = 'a')) rfl rfl).1 rfl⟩

/-!
## Backreference quantifiers are inert
-/

/-- C9: a quantifier character directly after a backreference is consumed
by the parser but ignored by the backreference branch: with any digit `d`
and quantifier `q`, the pattern `\d q rest` matches exactly like `\d rest`
(for every text and capture state), provided `rest` does not itself begin
with a quantifier character. -/
theorem C9_backref_quant_inert (fuel : Nat) (text : List Char) (d q : Char)
    (rest : List Char) (gidx : Nat) (caps : Caps)
    (hd : d.isDigit = true)
    (hq : q = '+' ∨ q = '?' ∨ q = '*')
    (hrest : quantSplit rest = (.qNone, rest)) :
    matchInner fuel text ('\\' :: d :: q :: rest) gidx caps
      = matchInner fuel text ('\\' :: d :: rest) gidx caps := by
  cases fuel with
  | zero => rfl
  | succ f =>
    have hpe1 : parseExpression ('\\' :: d :: q :: rest)
        = .ok (.backref (d.toNat - '0'.toNat), 2) := by
      simp [parseExpression, parseAtom, hd]
    have hpe2 : parseExpression ('\\' :: d :: rest)
        = .ok (.backref (d.toNat - '0'.toNat), 2) := by
      simp [parseExpression, parseAtom, hd]
    rw [matchInner, matchInner, hpe1, hpe2]
    simp only
    have hd1 : ('\\' :: d :: q :: rest).drop 2 = q :: rest := rfl
    have hd2 : ('\\' :: d :: rest).drop 2 = rest := rfl
    rw [hd1, hd2, hrest]
    obtain ⟨qq, hq1⟩ : ∃ qq, quantSplit (q :: rest) = (qq, rest) := by
      rcases hq with h | h | h <;> subst h
      · exact ⟨.qPlus, by simp [quantSplit]⟩
      · exact ⟨.qOpt, by simp [quantSplit]⟩
      · exact ⟨.qStar, by simp [quantSplit]⟩
    rw [hq1]
    rfl

/-- Witness for C9: `\1+` behaves like `\1` on text `aa` with capture `a`. -/
theorem C9_backref_quant_inert_witness :
    (('1' : Char).isDigit = true ∧ ('+' = '+' ∨ '+' = '?' ∨ '+' = '*') ∧
      quantSplit ([] : List Char) = (.qNone, [])) ∧
    matchInner 5 ['a', 'a'] ['\\', '1', '+'] 0 [some ['a']]
      = matchInner 5 ['a', 'a'] ['\\', '1'] 0 [some ['a']] :=
  ⟨⟨rfl, Or.inl rfl, rfl⟩,
    C9_backref_quant_inert 5 ['a', 'a'] '1' '+' [] 0 [some ['a']] rfl (Or.inl rfl) rfl⟩

/-!
## Concrete behaviour of the engine at its failure points
-/

/-- C2: matching the parser-accepted pattern `(a)*` against `a` does not
return a boolean — the group falls through to the atom path where the
matcher is `None`, and calling it raises `TypeError`.  On empty text the
matcher is never called, so `(a)*` matches the empty string. -/
theorem C2_group_star_type_error :
    matchesE 5 ['(', 'a', ')', '*'] ['a'] = .error .noMatcher ∧
    matchesE 5 ['(', 'a', ')', '*'] [] = .ok true := by
  constructor
  · decide
  · decide

/-- C3 (counterexample): constructing `MiniRegex("[abc")` succeeds — the
constructor only counts groups and validates nothing — and the unterminated
class error is raised only when `matches` runs. -/
theorem C3_construct_never_fails :
    construct ['[', 'a', 'b', 'c']
      = { pattern := ['[', 'a', 'b', 'c'], captures := [], numGroups := 0 } ∧
    matchesE 3 ['[', 'a', 'b', 'c'] ['x'] = .error .untermClass := by
  exact ⟨rfl, by decide⟩

theorem matchInner_untermClass (fuel : Nat) (t : List Char) (caps : Caps) :
    matchInner (fuel + 1) t ['[', 'a', 'b', 'c'] 0 caps = .fail .untermClass := rfl

theorem matchInner_missingParen (fuel : Nat) (t : List Char) (caps : Caps) :
    matchInner (fuel + 1) t ['(', 'a', 'b'] 0 caps = .fail .missingParen := rfl

/-- C3 (amended): the two parse failures are raised, as `ValueError`s, from
inside `matches` — on every text and at any recursion budget — rather than
at construction time. -/
theorem C3_parse_errors_at_match_time (fuel : Nat) (text : List Char) :
    matchesE (fuel + 1) ['[', 'a', 'b', 'c'] text = .error .untermClass ∧
    matchesE (fuel + 1) ['(', 'a', 'b'] text = .error .missingParen := by
  constructor
  · show (tryOffsetsC (fuel + 1) ['[', 'a', 'b', 'c'] text false (text.length + 1) 0
      (List.replicate 0 none)).map Prod.fst = .error .untermClass
    rw [tryOffsetsC, matchInner_untermClass]
    rfl
  · show (tryOffsetsC (fuel + 1) ['(', 'a', 'b'] text false (text.length + 1) 0
      (List.replicate 0 none)).map Prod.fst = .error .missingParen
    rw [tryOffsetsC, matchInner_missingParen]
    rfl

/-- C6: a `+`-quantified group enumerates repetition counts greedy-longest
first (`(ab)+` on `ababc` yields lengths `[4, 2]`), and on the winning path
of `(ab)+c` against `ababc` the match succeeds with capture 1 equal to the
substring `ab` of the last iteration. -/
theorem C6_plus_group_greedy_capture :
    matchesCaps 30 ['(', 'a', 'b', ')', '+', 'c'] ['a', 'b', 'a', 'b', 'c']
      = .ok (true, [some ['a', 'b']]) ∧
    (genTrace (matchInner 30 ['a', 'b', 'a', 'b', 'c'] ['(', 'a', 'b', ')', '+'] 0
        [none])).1.map (fun y => y.1) = [4, 2] := by
  constructor
  · decide
  · decide

/-!
## Out-of-range and unassigned backreferences
-/

/-- A backreference whose index is positive and either beyond the capture
array or naming an unassigned slot is exhausted at once: it yields nothing,
raises nothing, and leaves the captures unchanged. -/
theorem backref_unassigned_silent (fuel : Nat) (text pat : List Char)
    (gidx : Nat) (caps : Caps) (ref consumed : Nat)
    (hpe : parseExpression pat = .ok (.backref ref, consumed))
    (h1 : 1 ≤ ref)
    (hcap : caps.length < ref ∨ caps.get? (ref - 1) = some none) :
    matchInner (fuel + 1) text pat gidx caps = .done caps := by
  cases pat with
  | nil => simp [parseExpression, parseAtom] at hpe
  | cons p ps =>
    rw [matchInner, hpe]
    simp only
    rcases hq : quantSplit ((p :: ps).drop consumed) with ⟨q, rem⟩
    rw [matchExpr]
    rw [if_neg (by omega : ¬ ref = 0)]
    rcases hcap with hlen | hget
    · rw [if_neg (by omega : ¬ ref ≤ caps.length)]
    · have hlt : ref - 1 < caps.length := (List.get?_eq_some.mp hget).1
      rw [if_pos (by omega : ref ≤ caps.length), hget]

theorem matchInner_backref1_nil (fuel : Nat) (t : List Char) :
    matchInner (fuel + 1) t ['\\', '1'] 0 [] = .done [] := rfl

theorem tryOffsets_backref1 (fuel : Nat) (text : List Char) :
    ∀ (k i : Nat), tryOffsetsC (fuel + 1) ['\\', '1'] text false k i [] = .ok (false, []) := by
  intro k
  induction k with
  | zero => intro i; rfl
  | succ k ih =>
    intro i
    rw [tryOffsetsC, matchInner_backref1_nil]
    exact ih (i + 1)

/-- C7: a backreference whose index exceeds the capture count, or whose
slot is unassigned, fails silently — the path yields nothing and raises
nothing — and in particular `\1` with no prior group matches no text at
all, without error. -/
theorem C7_backref_out_of_range_silent :
    (∀ (fuel : Nat) (text pat : List Char) (gidx : Nat) (caps : Caps) (ref consumed : Nat),
        parseExpression pat = .ok (.backref ref, consumed) → 1 ≤ ref →
        (caps.length < ref ∨ caps.get? (ref - 1) = some none) →
        matchInner (fuel + 1) text pat gidx caps = .done caps) ∧
    (∀ (fuel : Nat) (text : List Char),
        matchesE (fuel + 1) ['\\', '1'] text = .ok false) := by
  refine ⟨backref_unassigned_silent, fun fuel text => ?_⟩
  show (tryOffsetsC (fuel + 1) ['\\', '1'] text false (text.length + 1) 0
    (List.replicate 0 none)).map Prod.fst = .ok false
  rw [show (List.replicate 0 (none : Option (List Char))) = [] from rfl,
    tryOffsets_backref1 fuel text (text.length + 1) 0]
  rfl

/-- Witness for C7: `\2` with a single assigned capture fails silently. -/
theorem C7_backref_out_of_range_silent_witness :
    (parseExpression ['\\', '2'] = .ok (.backref 2, 2) ∧ 1 ≤ 2 ∧
      (([some ['a']] : Caps).length < 2 ∨ ([some ['a']] : Caps).get? 1 = some none)) ∧
    matchInner 4 ['x'] ['\\', '2'] 0 [some ['a']] = .done [some ['a']] :=
  ⟨⟨rfl, by omega, Or.inl (by decide)⟩,
    C7_backref_out_of_range_silent.1 3 ['x'] ['\\', '2'] 0 [some ['a']] 2 2 rfl
      (by omega) (Or.inl (by decide))⟩

theorem matchInner_backref0_nil (fuel : Nat) (t : List Char) :
    matchInner (fuel + 1) t ['\\', '0'] 0 [] = .fail .capsIndex := rfl

/-- C10: `\0` parses as a backreference with index 0; its lookup
`captures[ref - 1]` is `captures[-1]`, the last slot, so `(a)\0` matches
`aa`; with zero groups the lookup indexes the empty capture list and raises
`IndexError` instead of failing silently. -/
theorem C10_backref_zero_last_slot :
    parseAtom ['\\', '0'] = .ok (.backref 0, 2) ∧
    matchesE 20 ['(', 'a', ')', '\\', '0'] ['a', 'a'] = .ok true ∧
    (∀ (fuel : Nat) (text : List Char),
        matchesE (fuel + 1) ['\\', '0'] text = .error .capsIndex) := by
  refine ⟨rfl, by decide, fun fuel text => ?_⟩
  show (tryOffsetsC (fuel + 1) ['\\', '0'] text false (text.length + 1) 0
    (List.replicate 0 none)).map Prod.fst = .error .capsIndex
  rw [show (List.replicate 0 (none : Option (List Char))) = [] from rfl,
    tryOffsetsC, matchInner_backref0_nil]
  rfl

/-!
## Yield lengths never exceed the text length

`BoundedG n g` says every yield of `g` — under every way of resuming it —
consumes at most `n` characters; the engine satisfies it with `n` the
length of the text it was started on.
-/

def BoundedG (n : Nat) : Gen → Prop
  | .done _ => True
  | .fail _ => True
  | .yld l _ _ k => l ≤ n ∧ ∀ c2, BoundedG n (k c2)

theorem countdown_le : ∀ {n u : Nat}, u ∈ countdown n → u ≤ n := by
  intro n
  induction n with
  | zero => intro u h; simp [countdown] at h
  | succ m ih =>
    intro u h
    rw [countdown] at h
    rcases List.mem_cons.mp h with h | h
    · omega
    · have := ih h; omega

theorem takeWhile_length_le (m : Char → Bool) (text : List Char) :
    (text.takeWhile m).length ≤ text.length :=
  (List.takeWhile_prefix m).length_le

theorem mapGen_boundedG {f : Nat → Nat} {n m : Nat}
    (hf : ∀ x, x ≤ n → f x ≤ m) :
    ∀ {g : Gen}, BoundedG n g → BoundedG m (mapGen f g) := by
  intro g
  induction g with
  | done c => intro _; trivial
  | fail e => intro _; trivial
  | yld l gg c k ih =>
    intro h
    obtain ⟨hl, hk⟩ := h
    exact ⟨hf l hl, fun c2 => ih c2 (hk c2)⟩

theorem genSeq_boundedG {f : Caps → Gen} {n : Nat}
    (hf : ∀ c, BoundedG n (f c)) :
    ∀ {g : Gen}, BoundedG n g → BoundedG n (genSeq g f) := by
  intro g
  induction g with
  | done c => intro _; exact hf c
  | fail e => intro _; trivial
  | yld l gg c k ih =>
    intro h
    obtain ⟨hl, hk⟩ := h
    exact ⟨hl, fun c2 => ih c2 (hk c2)⟩

theorem seqGens_boundedG {mk : Nat → Caps → Gen} {n : Nat} :
    ∀ (us : List Nat), (∀ u ∈ us, ∀ s, BoundedG n (mk u s)) →
      ∀ (caps : Caps), BoundedG n (seqGens mk us caps) := by
  intro us
  induction us with
  | nil => intro _ caps; trivial
  | cons u rest ih =>
    intro h caps
    rw [seqGens]
    exact genSeq_boundedG
      (fun c => ih (fun v hv s => h v (List.mem_cons_of_mem _ hv) s) c)
      (h u (List.mem_cons_self _ _) caps)

theorem runAlt_boundedG {thisG : Nat} {inp : List Char} {saved : Caps}
    {cont : Caps → Gen} {n : Nat} (hcont : ∀ c, BoundedG n (cont c)) :
    ∀ {g : Gen}, BoundedG n g → BoundedG n (runAlt thisG inp saved cont g) := by
  intro g
  induction g with
  | done c => intro _; exact hcont saved
  | fail e => intro _; trivial
  | yld l gg c k ih =>
    intro h
    obtain ⟨hl, hk⟩ := h
    rw [runAlt]
    by_cases hlen : thisG - 1 < c.length
    · rw [if_pos hlen]
      exact ⟨hl, fun c2 => ih c2 (hk c2)⟩
    · rw [if_neg hlen]
      trivial

theorem matchAlts_boundedG {mi : MI} {inp : List Char} {thisG gidx : Nat} {n : Nat}
    (hmi : ∀ alt s, BoundedG n (mi inp alt gidx s)) :
    ∀ (alts : List (List Char)) (s : Caps),
      BoundedG n (matchAlts mi inp alts thisG gidx s) := by
  intro alts
  induction alts with
  | nil => intro s; trivial
  | cons alt rest ih =>
    intro s
    rw [matchAlts]
    exact runAlt_boundedG (fun s2 => ih s2) (hmi alt s)

theorem plusGo_boundedG {l : Nat} {saved : Caps} {yg : Nat} {resume : Caps → Gen} {n : Nat}
    (hl : l ≤ n) (hres : ∀ c2, BoundedG n (resume c2)) :
    ∀ {g : Gen}, BoundedG (n - l) g → BoundedG n (plusGo l saved yg resume g) := by
  intro g
  induction g with
  | done c => intro _; exact ⟨hl, hres⟩
  | fail e => intro _; trivial
  | yld ml mg cm k ih =>
    intro h
    obtain ⟨hml, hk⟩ := h
    exact ⟨by omega, fun c2 => ih c2 (hk c2)⟩

theorem plusOuter_boundedG {pr : Nat → Caps → Gen} {n : Nat}
    (hpr : ∀ l c, l ≤ n → BoundedG (n - l) (pr l c)) :
    ∀ {g : Gen}, BoundedG n g → BoundedG n (plusOuter pr g) := by
  intro g
  induction g with
  | done c => intro _; trivial
  | fail e => intro _; trivial
  | yld l gg c k ih =>
    intro h
    obtain ⟨hl, hk⟩ := h
    rw [plusOuter]
    exact plusGo_boundedG hl (fun c2 => ih c2 (hk c2)) (hpr l c hl)

theorem matchPlus_boundedG {mi : MI}
    (hmi : ∀ t p g c, BoundedG t.length (mi t p g c)) :
    ∀ (fuel : Nat) (inp : List Char) (alts : List (List Char)) (thisG gidx : Nat)
      (caps : Caps), BoundedG inp.length (matchPlus fuel mi inp alts thisG gidx caps) := by
  intro fuel
  induction fuel with
  | zero => intro inp alts tg g c; trivial
  | succ f ih =>
    intro inp alts tg g caps
    rw [matchPlus]
    apply plusOuter_boundedG
    · intro l c hl
      have h2 := ih (inp.drop l) alts tg g c
      rwa [List.length_drop] at h2
    · exact matchAlts_boundedG (fun alt s => hmi inp alt g s) alts caps

theorem bindInner_boundedG {l n : Nat} {resume : Caps → Gen}
    (hl : l ≤ n) (hres : ∀ c, BoundedG n (resume c)) :
    ∀ {g : Gen}, BoundedG (n - l) g → BoundedG n (bindInner l resume g) := by
  intro g
  induction g with
  | done cf => intro _; exact hres cf
  | fail e => intro _; trivial
  | yld rl rg rc rk ih =>
    intro h
    obtain ⟨hrl, hk⟩ := h
    exact ⟨by omega, fun c2 => ih c2 (hk c2)⟩

theorem bindGen_boundedG {mk : Nat → Nat → Caps → Gen} {n : Nat}
    (hmk : ∀ l g c, l ≤ n → BoundedG (n - l) (mk l g c)) :
    ∀ {g : Gen}, BoundedG n g → BoundedG n (bindGen mk g) := by
  intro g
  induction g with
  | done c => intro _; trivial
  | fail e => intro _; trivial
  | yld l gg c k ih =>
    intro h
    obtain ⟨hl, hk⟩ := h
    rw [bindGen]
    exact bindInner_boundedG hl (fun cf => ih cf (hk cf)) (hmk l gg c hl)

theorem seqGens_drop_boundedG {mi : MI} {remainder : List Char} {gidx : Nat}
    (hmi : ∀ t p g c, BoundedG t.length (mi t p g c)) (text : List Char)
    (us : List Nat) (hus : ∀ u ∈ us, u ≤ text.length) (caps : Caps) :
    BoundedG text.length
      (seqGens (fun u s => mapGen (fun rl => u + rl) (mi (text.drop u) remainder gidx s))
        us caps) := by
  apply seqGens_boundedG
  intro u hu s
  apply mapGen_boundedG (n := (text.drop u).length)
  · intro x hx
    have h1 : (text.drop u).length = text.length - u := List.length_drop _ _
    have h2 := hus u hu
    omega
  · exact hmi _ _ _ _

theorem matchAtom_boundedG {mi : MI}
    (hmi : ∀ t p g c, BoundedG t.length (mi t p g c))
    (matcher : Option (Char → Bool)) (q : Quant) (text remainder : List Char)
    (gidx : Nat) (caps : Caps) :
    BoundedG text.length (matchAtom mi matcher q text remainder gidx caps) := by
  cases q with
  | qNone =>
    cases text with
    | nil => trivial
    | cons c rest =>
      cases matcher with
      | none => trivial
      | some m =>
        simp only [matchAtom]
        split
        · apply mapGen_boundedG (n := rest.length)
          · intro x hx
            simp only [List.length_cons]
            omega
          · exact hmi _ _ _ _
        · trivial
  | qPlus =>
    cases text with
    | nil => trivial
    | cons c rest =>
      cases matcher with
      | none => trivial
      | some m =>
        simp only [matchAtom]
        split
        · apply seqGens_drop_boundedG hmi
          intro u hu
          have h1 := countdown_le hu
          have h2 := takeWhile_length_le m (c :: rest)
          omega
        · trivial
  | qOpt =>
    cases text with
    | nil => exact hmi [] remainder gidx caps
    | cons c rest =>
      cases matcher with
      | none => trivial
      | some m =>
        simp only [matchAtom]
        split
        · apply genSeq_boundedG
          · intro fin
            exact hmi (c :: rest) remainder gidx fin
          · apply mapGen_boundedG (n := rest.length)
            · intro x hx
              simp only [List.length_cons]
              omega
            · exact hmi _ _ _ _
        · exact hmi (c :: rest) remainder gidx caps
  | qStar =>
    cases text with
    | nil =>
      simp only [matchAtom]
      apply seqGens_drop_boundedG hmi
      intro u hu
      simp at hu
      omega
    | cons c rest =>
      cases matcher with
      | none => trivial
      | some m =>
        simp only [matchAtom]
        apply seqGens_drop_boundedG hmi
        intro u hu
        rcases List.mem_append.mp hu with h | h
        · have h1 := countdown_le h
          have h2 := takeWhile_length_le m (c :: rest)
          omega
        · simp at h
          omega

theorem matchExpr_boundedG {mi : MI}
    {mpl : List Char → List (List Char) → Nat → Nat → Caps → Gen}
    (hmi : ∀ t p g c, BoundedG t.length (mi t p g c))
    (hmpl : ∀ t alts tg g c, BoundedG t.length (mpl t alts tg g c))
    (a : Atom) (q : Quant) (text remainder : List Char) (gidx : Nat) (caps : Caps) :
    BoundedG text.length (matchExpr mi mpl a q text remainder gidx caps) := by
  have hmk : ∀ l g c, l ≤ text.length →
      BoundedG (text.length - l) (mi (text.drop l) remainder g c) := by
    intro l g c _
    have h2 := hmi (text.drop l) remainder g c
    rwa [List.length_drop] at h2
  cases a with
  | group alts =>
    cases q with
    | qNone =>
      exact bindGen_boundedG hmk
        (matchAlts_boundedG (fun alt s => hmi text alt _ s) alts caps)
    | qOpt =>
      exact genSeq_boundedG (fun fin => hmi text remainder gidx fin)
        (bindGen_boundedG hmk
          (matchAlts_boundedG (fun alt s => hmi text alt _ s) alts caps))
    | qPlus =>
      exact bindGen_boundedG hmk (hmpl text alts _ _ caps)
    | qStar =>
      exact matchAtom_boundedG hmi none .qStar text remainder gidx caps
  | backref ref =>
    have hpre : ∀ (v : List Char), v.isPrefixOf text = true →
        BoundedG text.length
          (mapGen (fun rl => v.length + rl) (mi (text.drop v.length) remainder gidx caps)) := by
      intro v hv
      have hvle : v.length ≤ text.length :=
        (List.isPrefixOf_iff_prefix.mp hv).length_le
      apply mapGen_boundedG (n := (text.drop v.length).length)
      · intro x hx
        have h1 : (text.drop v.length).length = text.length - v.length := List.length_drop _ _
        omega
      · exact hmi _ _ _ _
    simp only [matchExpr]
    split
    · split
      · trivial
      · trivial
      · rename_i v heq
        split
        · rename_i hv
          exact hpre v hv
        · trivial
    · split
      · split
        · rename_i v heq
          split
          · rename_i hv
            exact hpre v hv
          · trivial
        · trivial
      · trivial
  | literal c => exact matchAtom_boundedG hmi (atomMatcher (.literal c)) q text remainder gidx caps
  | wildcard => exact matchAtom_boundedG hmi (atomMatcher .wildcard) q text remainder gidx caps
  | escD => exact matchAtom_boundedG hmi (atomMatcher .escD) q text remainder gidx caps
  | escW => exact matchAtom_boundedG hmi (atomMatcher .escW) q text remainder gidx caps
  | cls body neg =>
    exact matchAtom_boundedG hmi (atomMatcher (.cls body neg)) q text remainder gidx caps

theorem matchInner_boundedG :
    ∀ (fuel : Nat) (text pat : List Char) (gidx : Nat) (caps : Caps),
      BoundedG text.length (matchInner fuel text pat gidx caps) := by
  intro fuel
  induction fuel with
  | zero => intro text pat gidx caps; trivial
  | succ f ih =>
    intro text pat gidx caps
    cases pat with
    | nil => exact ⟨Nat.zero_le _, fun c => trivial⟩
    | cons p ps =>
      cases hpe : parseExpression (p :: ps) with
      | error e =>
        have heq : matchInner (f + 1) text (p :: ps) gidx caps = .fail e := by
          rw [matchInner, hpe]
        rw [heq]
        trivial
      | ok r =>
        have heq : matchInner (f + 1) text (p :: ps) gidx caps
            = matchExpr (matchInner f) (matchPlus f (matchInner f)) r.1
                (quantSplit ((p :: ps).drop r.2)).1 text
                (quantSplit ((p :: ps).drop r.2)).2 gidx caps := by
          rw [matchInner, hpe]
        rw [heq]
        exact matchExpr_boundedG (fun t p2 g c => ih t p2 g c)
          (fun t alts tg g c => matchPlus_boundedG (fun t2 p2 g2 c2 => ih t2 p2 g2 c2)
            f t alts tg g c) r.1 _ text _ gidx caps

theorem genTrace_le {n : Nat} :
    ∀ {g : Gen}, BoundedG n g → ∀ y ∈ (genTrace g).1, y.1 ≤ n := by
  intro g
  induction g with
  | done c => intro _ y hy; simp [genTrace] at hy
  | fail e => intro _ y hy; simp [genTrace] at hy
  | yld l gg c k ih =>
    intro h y hy
    obtain ⟨hl, hk⟩ := h
    rw [genTrace_yld] at hy
    rcases List.mem_cons.mp hy with h1 | h1
    · rw [h1]
      exact hl
    · exact ih c (hk c) y h1

/-!
## The offset loop of `matches`
-/

/-- For an anchor-free pattern, each failed offset provably ends in the
entry capture state (no yield happened, so no consumer resumed anything),
and the loop succeeds exactly when some offset's generator yields. -/
theorem tryOffsetsC_ok_iff (fuel : Nat) (core text : List Char) :
    ∀ (k i : Nat) (caps : Caps) (b : Bool) (fin : Caps),
      tryOffsetsC fuel core text false k i caps = .ok (b, fin) →
      (b = true ↔ ∃ j, i ≤ j ∧ j < i + k ∧
        (genTrace (matchInner fuel (text.drop j) core 0 caps)).1 ≠ []) := by
  intro k
  induction k with
  | zero =>
    intro i caps b fin h
    have h2 : (Except.ok (ε := MErr) ((false, caps) : Bool × Caps)) = .ok (b, fin) := h
    injection h2 with h3
    injection h3 with h4 h5
    cases h4
    constructor
    · intro hb
      simp at hb
    · rintro ⟨j, h1, h2, _⟩
      omega
  | succ k ih =>
    intro i caps b fin h
    cases hg : matchInner fuel (text.drop i) core 0 caps with
    | fail e =>
      rw [tryOffsetsC, hg] at h
      have h2 : (Except.error (α := Bool × Caps) e) = .ok (b, fin) := h
      exact Except.noConfusion h2
    | done fin0 =>
      have hfin0 : fin0 = caps := matchInner_done fuel _ _ _ _ _ hg
      subst hfin0
      rw [tryOffsetsC, hg] at h
      have h2 : tryOffsetsC fuel core text false k (i + 1) fin0 = .ok (b, fin) := h
      have hiff := ih (i + 1) fin0 b fin h2
      rw [hiff]
      constructor
      · rintro ⟨j, h1, h3, h4⟩
        exact ⟨j, by omega, by omega, h4⟩
      · rintro ⟨j, h1, h3, h4⟩
        by_cases hj : j = i
        · subst hj
          rw [hg] at h4
          exact absurd rfl h4
        · exact ⟨j, by omega, by omega, h4⟩
    | yld l g2 c2 k2 =>
      rw [tryOffsetsC, hg] at h
      have h2 : (Except.ok (ε := MErr) ((true, c2) : Bool × Caps)) = .ok (b, fin) := h
      injection h2 with h3
      injection h3 with h4 h5
      cases h4
      refine iff_of_true rfl ⟨i, le_refl i, by omega, ?_⟩
      rw [hg, genTrace_yld]
      simp

theorem stripAnchors_no_anchors (pat : List Char)
    (hs : (stripAnchors pat).1 = false) (he : (stripAnchors pat).2.1 = false) :
    stripAnchors pat = (false, false, pat) := by
  simp only [stripAnchors] at hs he ⊢
  rw [hs, he]
  simp

/-- C1: for an anchor-free pattern, `matches` returns `True` exactly when
there are offsets `i ≤ j ≤ len(text)` such that the engine, started on the
suffix `text[i:]` with the freshly reset captures, yields a match of length
`j - i`; the driver tries the offsets `0, 1, …, len(text)` in order. -/
theorem C1_matches_iff_engine_yield (fuel : Nat) (pat text : List Char) (b : Bool)
    (hs : (stripAnchors pat).1 = false) (he : (stripAnchors pat).2.1 = false)
    (hm : matchesE fuel pat text = .ok b) :
    (b = true ↔ ∃ i j, i ≤ j ∧ j ≤ text.length ∧ ∃ g c,
      (j - i, g, c) ∈ (genTrace (matchInner fuel (text.drop i) pat 0
        (List.replicate (countGroups pat) none))).1) := by
  have hsa := stripAnchors_no_anchors pat hs he
  have hmc : matchesCaps fuel pat text
      = tryOffsetsC fuel pat text false (text.length + 1) 0
          (List.replicate (countGroups pat) none) := by
    rw [matchesCaps, hsa]
    rfl
  rw [matchesE, hmc] at hm
  cases hx : tryOffsetsC fuel pat text false (text.length + 1) 0
      (List.replicate (countGroups pat) none) with
  | error e =>
    rw [hx] at hm
    exact Except.noConfusion hm
  | ok p =>
    rw [hx] at hm
    rcases p with ⟨bb, fin⟩
    have hbb : bb = b := by
      have h2 : (Except.ok (ε := MErr) bb) = .ok b := hm
      exact Except.ok.inj h2
    subst hbb
    have hiff := tryOffsetsC_ok_iff fuel pat text (text.length + 1) 0
      (List.replicate (countGroups pat) none) bb fin hx
    rw [hiff]
    constructor
    · rintro ⟨off, -, hlt, hne⟩
      obtain ⟨y, hmem⟩ := List.exists_mem_of_ne_nil _ hne
      rcases y with ⟨l, g, c⟩
      have hbd : l ≤ (text.drop off).length :=
        genTrace_le (matchInner_boundedG fuel (text.drop off) pat 0
          (List.replicate (countGroups pat) none)) (l, g, c) hmem
      have hdl : (text.drop off).length = text.length - off := List.length_drop _ _
      refine ⟨off, off + l, Nat.le_add_right _ _, by omega, g, c, ?_⟩
      have h3 : off + l - off = l := by omega
      rw [h3]
      exact hmem
    · rintro ⟨i, j, hij, hjle, g, c, hmem⟩
      exact ⟨i, Nat.zero_le _, by omega, List.ne_nil_of_mem hmem⟩

/-- Witness for C1: pattern `a` on text `ba` matches, and the match is the
yield of length 1 on the suffix at offset 1. -/
theorem C1_matches_iff_engine_yield_witness :
    ((stripAnchors ['a']).1 = false ∧ (stripAnchors ['a']).2.1 = false ∧
      matchesE 5 ['a'] ['b', 'a'] = .ok true) ∧
    (∃ i j, i ≤ j ∧ j ≤ (['b', 'a'] : List Char).length ∧ ∃ g c,
      (j - i, g, c) ∈ (genTrace (matchInner 5 ((['b', 'a'] : List Char).drop i) ['a'] 0
        (List.replicate (countGroups ['a']) none))).1) :=
  ⟨⟨by decide, by decide, by decide⟩,
    (C1_matches_iff_engine_yield 5 ['a'] ['b', 'a'] true (by decide) (by decide)
      (by decide)).mp rfl⟩

/-!
## Characterising the parenthesis scan
-/

/-- Contribution of one character to the parenthesis depth in
`_find_matching_paren` and `_split_alternatives`: every `(` and `)` counts,
escaped or not. -/
def parenDelta (c : Char) : Int :=
  if c = '(' then 1 else if c = ')' then -1 else 0

/-- Acceptance condition of the `_find_matching_paren` scan at position `m`
of the still-unscanned suffix `u`, entered at depth `d`: the character is a
`)` and the depth has come down to 1 there. -/
def fmpCond (u : List Char) (d : Int) (m : Nat) : Prop :=
  u.get? m = some ')' ∧ d + ((u.take m).map parenDelta).sum = 1

theorem fmpCond_cons {c : Char} {rest : List Char} {d : Int} {m : Nat} :
    fmpCond (c :: rest) d (m + 1) ↔ fmpCond rest (d + parenDelta c) m := by
  unfold fmpCond
  rw [List.take_succ_cons]
  simp [add_assoc]

theorem fmpCond_zero {c : Char} {rest : List Char} {d : Int} :
    fmpCond (c :: rest) d 0 ↔ (c = ')' ∧ d = 1) := by
  unfold fmpCond
  simp

/-- The scan loop returns exactly the first position at which the running
depth (adjusted at every parenthesis, escapes included) closes. -/
theorem fmpAux_ok_iff :
    ∀ (u : List Char) (i d : Nat), 1 ≤ d → ∀ (r : Nat),
      (fmpAux u i d = .ok r ↔
        ∃ m, m < u.length ∧ r = i + m ∧ fmpCond u (d : Int) m ∧
          ∀ m2, m2 < m → ¬ fmpCond u (d : Int) m2) := by
  intro u
  induction u with
  | nil =>
    intro i d hd r
    constructor
    · intro h; simp [fmpAux] at h
    · intro ⟨m, hm, _⟩; simp at hm
  | cons c rest ih =>
    intro i d hd r
    rw [fmpAux]
    by_cases hop : c = '('
    · subst hop
      rw [if_pos rfl]
      have hδ : ((d : Int) + parenDelta '(') = ((d + 1 : Nat) : Int) := by
        simp [parenDelta]
      rw [ih (i + 1) (d + 1) (by omega) r]
      constructor
      · rintro ⟨m, hm, hr, hc, hmin⟩
        refine ⟨m + 1, by simp only [List.length_cons]; omega, by omega, ?_, ?_⟩
        · rw [fmpCond_cons, hδ]; exact hc
        · intro m2 hm2
          cases m2 with
          | zero =>
            rw [fmpCond_zero]
            rintro ⟨h1, _⟩
            exact absurd h1 (by decide)
          | succ m3 =>
            rw [fmpCond_cons, hδ]
            exact hmin m3 (by omega)
      · rintro ⟨m, hm, hr, hc, hmin⟩
        cases m with
        | zero =>
          exfalso
          rw [fmpCond_zero] at hc
          exact absurd hc.1 (by decide)
        | succ m3 =>
          rw [fmpCond_cons, hδ] at hc
          refine ⟨m3, by simp only [List.length_cons] at hm; omega, by omega, hc, ?_⟩
          intro m4 hm4
          have := hmin (m4 + 1) (by omega)
          rw [fmpCond_cons, hδ] at this
          exact this
    · rw [if_neg hop]
      by_cases hcl : c = ')'
      · subst hcl
        rw [if_pos rfl]
        by_cases hd1 : d = 1
        · subst hd1
          rw [if_pos rfl]
          constructor
          · intro h
            cases h
            refine ⟨0, by simp, by omega, ?_, by omega⟩
            rw [fmpCond_zero]
            exact ⟨rfl, by norm_num⟩
          · rintro ⟨m, hm, hr, hc, hmin⟩
            have hm0 : m = 0 := by
              by_contra hne
              exact hmin 0 (by omega) (fmpCond_zero.mpr ⟨rfl, by norm_num⟩)
            subst hm0
            rw [hr]
            norm_num
        · rw [if_neg hd1]
          have hδ : ((d : Int) + parenDelta ')') = ((d - 1 : Nat) : Int) := by
            simp [parenDelta]
            omega
          rw [ih (i + 1) (d - 1) (by omega) r]
          constructor
          · rintro ⟨m, hm, hr, hc, hmin⟩
            refine ⟨m + 1, by simp only [List.length_cons]; omega, by omega,
              by rw [fmpCond_cons, hδ]; exact hc, ?_⟩
            intro m2 hm2
            cases m2 with
            | zero =>
              rw [fmpCond_zero]
              rintro ⟨_, h2⟩
              exact hd1 (by omega)
            | succ m3 =>
              rw [fmpCond_cons, hδ]
              exact hmin m3 (by omega)
          · rintro ⟨m, hm, hr, hc, hmin⟩
            cases m with
            | zero =>
              rw [fmpCond_zero] at hc
              exact absurd (by have := hc.2; omega : d = 1) hd1
            | succ m3 =>
              rw [fmpCond_cons, hδ] at hc
              refine ⟨m3, by simp only [List.length_cons] at hm; omega, by omega, hc,
                fun m4 hm4 => ?_⟩
              have := hmin (m4 + 1) (by omega)
              rw [fmpCond_cons, hδ] at this
              exact this
      · rw [if_neg hcl]
        have hδ : ((d : Int) + parenDelta c) = (d : Int) := by
          simp [parenDelta, hop, hcl]
        rw [ih (i + 1) d hd r]
        constructor
        · rintro ⟨m, hm, hr, hc, hmin⟩
          refine ⟨m + 1, by simp only [List.length_cons]; omega, by omega,
            by rw [fmpCond_cons, hδ]; exact hc, ?_⟩
          intro m2 hm2
          cases m2 with
          | zero =>
            rw [fmpCond_zero]
            rintro ⟨h1, _⟩
            exact hcl h1
          | succ m3 =>
            rw [fmpCond_cons, hδ]
            exact hmin m3 (by omega)
        · rintro ⟨m, hm, hr, hc, hmin⟩
          cases m with
          | zero =>
            rw [fmpCond_zero] at hc
            exact absurd hc.1 hcl
          | succ m3 =>
            rw [fmpCond_cons, hδ] at hc
            refine ⟨m3, by simp only [List.length_cons] at hm; omega, by omega, hc,
              fun m4 hm4 => ?_⟩
            have := hmin (m4 + 1) (by omega)
            rw [fmpCond_cons, hδ] at this
            exact this

theorem splitAux_ne_nil : ∀ (l : List Char) (d : Int) (acc : List Char),
    splitAux l d acc ≠ [] := by
  intro l
  induction l with
  | nil => intro d acc; simp [splitAux]
  | cons c rest ih =>
    intro d acc
    rw [splitAux]
    by_cases h1 : c = '('
    · rw [if_pos h1]; exact ih _ _
    · rw [if_neg h1]
      by_cases h2 : c = ')'
      · rw [if_pos h2]; exact ih _ _
      · rw [if_neg h2]
        by_cases h3 : c = '|' ∧ d = 0
        · rw [if_pos h3]; simp
        · rw [if_neg h3]; exact ih _ _

theorem intercalate_bar_singleton (a : List Char) :
    List.intercalate [('|' : Char)] [a] = a := by
  simp [List.intercalate]

theorem intercalate_bar_cons (a : List Char) (l : List (List Char)) (h : l ≠ []) :
    List.intercalate [('|' : Char)] (a :: l)
      = a ++ '|' :: List.intercalate ['|'] l := by
  cases l with
  | nil => exact absurd rfl h
  | cons b tl => simp [List.intercalate]

theorem splitAux_join : ∀ (l : List Char) (d : Int) (acc : List Char),
    List.intercalate [('|' : Char)] (splitAux l d acc) = acc.reverse ++ l := by
  intro l
  induction l with
  | nil =>
    intro d acc
    rw [splitAux, intercalate_bar_singleton]
    simp
  | cons c rest ih =>
    intro d acc
    rw [splitAux]
    by_cases h1 : c = '('
    · rw [if_pos h1, ih]
      subst h1
      simp
    · rw [if_neg h1]
      by_cases h2 : c = ')'
      · rw [if_pos h2, ih]
        subst h2
        simp
      · rw [if_neg h2]
        by_cases h3 : c = '|' ∧ d = 0
        · rw [if_pos h3, intercalate_bar_cons _ _ (splitAux_ne_nil _ _ _), ih]
          rw [h3.1]
          simp
        · rw [if_neg h3, ih]
          simp

/-- C8 (amended): the `)` matching an opening `(` is found by depth
counting in which every `(` and `)` adjusts the depth — escaped parentheses
included — i.e. it is the first later position holding a `)` at which the
parenthesis balance of the intervening characters returns to zero; and the
group content splits at `|` characters at zero depth (again counting every
parenthesis), the parts joining back with `|` to the original content. -/
theorem C8_paren_scan_counts_escaped :
    (∀ (pat : List Char) (start r : Nat),
      findMatchingParen pat start = .ok r ↔
        ∃ m, m < (pat.drop (start + 1)).length ∧ r = start + 1 + m ∧
          fmpCond (pat.drop (start + 1)) 1 m ∧
          ∀ m2, m2 < m → ¬ fmpCond (pat.drop (start + 1)) 1 m2) ∧
    (∀ content : List Char,
      List.intercalate [('|' : Char)] (splitAlts content) = content) := by
  constructor
  · intro pat start r
    unfold findMatchingParen
    have h := fmpAux_ok_iff (pat.drop (start + 1)) (start + 1) 1 (le_refl 1) r
    simpa using h
  · intro content
    rw [splitAlts, splitAux_join]
    rfl

/-- Modelled from the spec: the claim (and §4.1 of the spec) describe
`_find_matching_paren` as depth counting over *unescaped* `(` and `)` only;
this reference scan skips the character following every backslash.  It is
stated solely for comparison with the source's `findMatchingParen`, which
does not skip escapes. -/
def fmpSpecAux : List Char → Nat → Nat → Except MErr Nat
  | [], _, _ => .error .missingParen
  | ['\\'], _, _ => .error .missingParen
  | '\\' :: _ :: rest, i, d => fmpSpecAux rest (i + 2) d
  | c :: rest, i, d =>
    if c = '(' then fmpSpecAux rest (i + 1) (d + 1)
    else if c = ')' then
      if d = 1 then .ok i else fmpSpecAux rest (i + 1) (d - 1)
    else fmpSpecAux rest (i + 1) d

/-- Modelled from the spec: `_find_matching_paren` as the claim describes
it, counting unescaped parentheses only. -/
def findMatchingParenSpec (pat : List Char) (start : Nat) : Except MErr Nat :=
  fmpSpecAux (pat.drop (start + 1)) (start + 1) 1

/-- C8 (counterexample): on the pattern `(a\))` the source's depth counting
treats the escaped `\)` as a closing parenthesis and returns index 3; the
unescaped-only counting the claim describes returns index 4. -/
theorem C8_escaped_paren_counted :
    findMatchingParen ['(', 'a', '\\', ')', ')'] 0 = .ok 3 ∧
    findMatchingParenSpec ['(', 'a', '\\', ')', ')'] 0 = .ok 4 ∧
    findMatchingParen ['(', 'a', '\\', ')', ')'] 0
      ≠ findMatchingParenSpec ['(', 'a', '\\', ')', ')'] 0 :=
  ⟨rfl, rfl, by decide⟩

end PyGrep
